import Mathlib

/-!
Verification development for the Tuya BLE protocol engine of
`pi-fallback/tuya_ble.py` (homeassistant-ble-proxy).

Bytes are modelled as `List Nat` (each entry a value `0 ≤ b < 256` where it
matters). The external AES-128-ECB block cipher from the `cryptography`
library is modelled abstractly: functions that encrypt or decrypt take the
per-16-byte-block transformation as an explicit parameter, and theorems
assume only the block-cipher contract (length preservation, inversion) that
the library provides. Likewise MD5 from `hashlib` is a parameter producing
a 16-byte digest. Everything else is translated directly from the source.
-/

namespace TuyaBLE

/-- Big-endian interpretation of a byte list (as `struct.unpack(">H")`
or `">I"` on the corresponding width). -/
def beNat (l : List Nat) : Nat := l.foldl (fun a b => a * 256 + b) 0

/-- Big-endian 2-byte serialization of a 16-bit value (as
`struct.pack(">H", n)`; exact for `n < 65536`). -/
def u16be (n : Nat) : List Nat := [n / 256 % 256, n % 256]

/-- One shift step of the CRC16-CCITT inner loop of `_crc16`:
shift left, conditionally xor the polynomial `0x1021`, mask to 16 bits. -/
def crcRound (crc : Nat) : Nat :=
  if crc &&& 32768 ≠ 0 then ((crc <<< 1) ^^^ 4129) &&& 65535
  else (crc <<< 1) &&& 65535

/-- `k` iterations of the CRC shift step (the source's `for _ in range(8)`). -/
def crcRounds : Nat → Nat → Nat
  | 0, crc => crc
  | k + 1, crc => crcRounds k (crcRound crc)

/-- `_crc16`: CRC16-CCITT with initial value `0xFFFF`, polynomial `0x1021`,
processing each byte via `crc ^= byte << 8` then eight shift rounds. -/
def _crc16 (data : List Nat) : Nat :=
  data.foldl (fun crc b => crcRounds 8 (crc ^^^ (b <<< 8))) 65535

/-- `_build_packet`: advance the sequence number (`(seq + 1) & 0xFFFF`),
serialize `[seq:2][cmd:1][length:2][data:n]` big-endian, append the CRC16 of
everything so far. Returns the new sequence number and the packet bytes.
Faithful for `command < 256` and `data.length < 65536` (outside that range
`struct.pack(">HBH", ...)` raises in the source). -/
def _build_packet (seq_num : Nat) (command : Nat) (data : List Nat) :
    Nat × List Nat :=
  let s := (seq_num + 1) % 65536
  let header := u16be s ++ [command] ++ u16be data.length
  let packet := header ++ data
  (s, packet ++ u16be (_crc16 packet))

/-- The header parse performed on inbound notifications
(`_notification_handler`, lines 225–229): require at least 7 bytes, read
`seq:u16`, `cmd:u8`, `length:u16` big-endian from the first five bytes, and
slice `data[5:5+length]` as the payload (a Python slice, so the payload is
silently truncated when fewer bytes than `length` remain). -/
def parse_header (data : List Nat) : Option (Nat × Nat × List Nat) :=
  if data.length < 7 then none
  else
    some (beNat (data.take 2), data.getD 2 0,
      (data.drop 5).take (256 * data.getD 3 0 + data.getD 4 0))

/-- Splitting a byte list into consecutive 16-byte blocks, with explicit
fuel (each step consumes at least one byte, so `l.length` units always
suffice). -/
def chunks16Go : Nat → List Nat → List (List Nat)
  | fuel + 1, a :: l => (a :: l).take 16 :: chunks16Go fuel ((a :: l).drop 16)
  | _, _ => []

/-- Split a byte list into consecutive 16-byte blocks, the last one possibly
shorter (the block stream an ECB-mode cipher processes). -/
def chunks16 (l : List Nat) : List (List Nat) :=
  chunks16Go l.length l

/-- The padding length `_encrypt` uses: `16 - (len(data) % 16)`,
always in `[1, 16]`. -/
def padLen (data : List Nat) : Nat := 16 - data.length % 16

/-- The padded buffer `_encrypt` builds:
`data + bytes([padding_len] * padding_len)`. -/
def padBytes (data : List Nat) : List Nat :=
  data ++ List.replicate (padLen data) (padLen data)

/-- `_encrypt`: pad to a 16-byte boundary (a full extra block when already
aligned), then encrypt each 16-byte block with the AES-128-ECB block
transformation `blk` (the `cryptography` library cipher under the active
key, passed abstractly). -/
def _encrypt (blk : List Nat → List Nat) (data : List Nat) : List Nat :=
  ((chunks16 (padBytes data)).map blk).flatten

/-- Failure modes of `_decrypt` as the Python exceptions it can raise:
`finalize()`'s ValueError on input that is not a whole number of blocks,
`decrypted[-1]`'s IndexError on an empty buffer, and the explicit
`ValueError("Invalid PKCS7 padding length")`. -/
inductive CryptoError where
  | notBlockAligned
  | indexError
  | invalidPadding
deriving DecidableEq

/-- The raw block-by-block decryption inside `_decrypt`
(`decryptor.update(data) + decryptor.finalize()`), with `blkInv` the
AES-128-ECB block inverse under the active key. -/
def decryptRaw (blkInv : List Nat → List Nat) (data : List Nat) : List Nat :=
  ((chunks16 data).map blkInv).flatten

/-- `_decrypt`: AES-128-ECB-decrypt, then read the last byte as the padding
length, reject it if zero or above 16, and strip that many trailing bytes
(`decrypted[:-padding_len]`). -/
def _decrypt (blkInv : List Nat → List Nat) (data : List Nat) :
    Except CryptoError (List Nat) :=
  if data.length % 16 ≠ 0 then .error .notBlockAligned
  else if decryptRaw blkInv data = [] then .error .indexError
  else
    let padding_len := (decryptRaw blkInv data).getLastD 0
    if padding_len = 0 ∨ padding_len > 16 then .error .invalidPadding
    else .ok ((decryptRaw blkInv data).take
        ((decryptRaw blkInv data).length - padding_len))

/-- Tuya BLE command codes (`TuyaCommand`). -/
def TuyaCommand.PAIR_REQ : Nat := 1

def TuyaCommand.PAIR_RESP : Nat := 2

def TuyaCommand.DEVICE_INFO_REQ : Nat := 3

def TuyaCommand.DEVICE_INFO_RESP : Nat := 4

def TuyaCommand.DP_QUERY : Nat := 8

def TuyaCommand.DP_REPORT : Nat := 7

def TuyaCommand.DP_WRITE : Nat := 6

def TuyaCommand.TIME_SYNC : Nat := 13

/-- Tuya data-point types (`DPType`). -/
def DPType.RAW : Nat := 0

def DPType.BOOL : Nat := 1

def DPType.VALUE : Nat := 2

def DPType.STRING : Nat := 3

def DPType.ENUM : Nat := 4

def DPType.BITMAP : Nat := 5

/-- `bytes.rjust(width, fill)`: left-pad to `width` with `fill`
(unchanged when already at least `width` long). -/
def rjust (l : List Nat) (width fill : Nat) : List Nat :=
  List.replicate (width - l.length) fill ++ l

/-- `struct.unpack(">i", b)` on a 4-byte buffer: the big-endian signed
32-bit interpretation. -/
def int32ofBytes (l : List Nat) : Int :=
  if beNat l < 2147483648 then (beNat l : Int)
  else (beNat l : Int) - 4294967296

/-- A decoded data-point value. `str` keeps the payload bytes the source
hands to `dp_data.decode("utf-8", errors="replace")`; `raw` keeps the bytes
the source renders as `dp_data.hex()` — both total, injective renderings,
so the bytes themselves stand for the value. -/
inductive DPValue where
  | bool (b : Bool)
  | int (i : Int)
  | str (bytes : List Nat)
  | enum (n : Nat)
  | raw (bytes : List Nat)
deriving DecidableEq

/-- The per-record value decoding of `_parse_dps`: boolean reads the first
byte (`False` when empty), integer unpacks `">i"` of the left-zero-padded
first four bytes, enum reads the first byte (`0` when empty), everything
else passes the bytes through. -/
def parse_dp_value (dp_type : Nat) (dp_data : List Nat) : DPValue :=
  if dp_type = DPType.BOOL then .bool (dp_data.headD 0 != 0)
  else if dp_type = DPType.VALUE then
    .int (int32ofBytes ((rjust dp_data 4 0).take 4))
  else if dp_type = DPType.STRING then .str dp_data
  else if dp_type = DPType.ENUM then .enum (dp_data.headD 0)
  else .raw dp_data

/-- The scanning loop of `_parse_dps` with explicit fuel (each iteration
consumes at least four bytes, so `data.length` units of fuel always
suffice): read the 4-byte sub-header `{id, type, length:u16}`, then that
many value bytes; break (returning what was parsed so far) as soon as fewer
than 4 bytes remain for the sub-header or fewer than the declared length
remain for the value. -/
def parse_dps_go : Nat → List Nat → List (Nat × DPValue)
  | fuel + 1, dp_id :: dp_type :: l0 :: l1 :: rest =>
      if 256 * l0 + l1 > rest.length then []
      else
        (dp_id, parse_dp_value dp_type (rest.take (256 * l0 + l1)))
          :: parse_dps_go fuel (rest.drop (256 * l0 + l1))
  | _, _ => []

/-- The scanning loop of `_parse_dps`, yielding `(id, value)` pairs in
parse order. -/
def parse_dps_list (data : List Nat) : List (Nat × DPValue) :=
  parse_dps_go data.length data

/-- Python-dict assignment `dps[dp_id] = value` on an insertion-ordered
association list: overwrite in place when the key exists, append
otherwise. -/
def dictSet (m : List (Nat × DPValue)) (k : Nat) (v : DPValue) :
    List (Nat × DPValue) :=
  if m.any (fun p => p.1 == k) then
    m.map (fun p => if p.1 = k then (k, v) else p)
  else m ++ [(k, v)]

/-- Python `dict.update(new)`: assign each of `new`'s entries in order. -/
def dictUpdate (m new : List (Nat × DPValue)) : List (Nat × DPValue) :=
  new.foldl (fun acc p => dictSet acc p.1 p.2) m

/-- `_parse_dps`: the `dps` dictionary built by assigning each scanned
`(id, value)` pair in order into an initially empty dict. -/
def _parse_dps (data : List Nat) : List (Nat × DPValue) :=
  dictUpdate [] (parse_dps_list data)

/-- Wire encoding of one data-point sub-record
`id:u8 | type:u8 | length:u16 | value`; used to state properties of
`_parse_dps` on well-formed buffers. -/
def encodeDP (r : Nat × Nat × List Nat) : List Nat :=
  [r.1, r.2.1, r.2.2.length / 256, r.2.2.length % 256] ++ r.2.2

/-- The mutable per-connection state of `TuyaBLEDevice` that
`_notification_handler` reads and writes. -/
structure DeviceState where
  session_key : Option (List Nat)
  response_data : Option (List Nat)
  response_event : Bool
  received_dps : List (Nat × DPValue)
deriving DecidableEq

/-- The command dispatch of `_notification_handler` on a parsed frame:
store pair/device-info response payloads and signal; for `DP_REPORT`,
decrypt the payload only when a session key exists *and* the payload is at
least 16 bytes, else parse it as plaintext, then merge the data points and
signal. `blkInv` abstracts the AES-128-ECB block inverse under
`self._session_key or self._get_key()`; a `CryptoError` raised by
`_decrypt` is caught by the handler's surrounding `except`, leaving the
state unchanged. -/
def handle_frame (blkInv : List Nat → List Nat) (st : DeviceState)
    (cmd : Nat) (payload : List Nat) : DeviceState :=
  if cmd = TuyaCommand.PAIR_RESP then
    { st with response_data := some payload, response_event := true }
  else if cmd = TuyaCommand.DP_REPORT then
    if st.session_key.isSome ∧ 16 ≤ payload.length then
      match _decrypt blkInv payload with
      | .error _ => st
      | .ok decrypted =>
          { st with
            received_dps := dictUpdate st.received_dps
              (_parse_dps decrypted),
            response_event := true }
    else
      { st with
        received_dps := dictUpdate st.received_dps (_parse_dps payload),
        response_event := true }
  else if cmd = TuyaCommand.DEVICE_INFO_RESP then
    { st with response_data := some payload, response_event := true }
  else st

/-- `_notification_handler` proper: parse the header (returning unchanged
on a buffer under 7 bytes), then dispatch on the command. -/
def _notification_handler (blkInv : List Nat → List Nat) (st : DeviceState)
    (data : List Nat) : DeviceState :=
  match parse_header data with
  | none => st
  | some (_, cmd, payload) => handle_frame blkInv st cmd payload

/-- The post-decryption step of `_pair`: adopt the first 16 decrypted bytes
as the session key when at least 16 are present; a `_decrypt` exception is
caught (`except` clause), leaving no session key. -/
def adopt_session_key (decRes : Except CryptoError (List Nat)) :
    Option (List Nat) :=
  match decRes with
  | .error _ => none
  | .ok decrypted =>
      if 16 ≤ decrypted.length then some (decrypted.take 16) else none

/-- The session-key derivation at the end of `_pair` (lines 320–328):
`if self._response_data:` (Python truthiness, so `None` and the empty
payload both skip), decrypt under the static key (`blkInv`; no session key
exists yet), then `adopt_session_key`. -/
def derive_session_key (blkInv : List Nat → List Nat)
    (response_data : Option (List Nat)) : Option (List Nat) :=
  match response_data with
  | none => none
  | some rd =>
      if rd = [] then none
      else adopt_session_key (_decrypt blkInv rd)

/-- UTF-8 encoding of one Unicode code point (what `str.encode()` emits per
character). -/
def utf8EncodeChar (c : Nat) : List Nat :=
  if c < 128 then [c]
  else if c < 2048 then [192 + c / 64, 128 + c % 64]
  else if c < 65536 then [224 + c / 4096, 128 + c / 64 % 64, 128 + c % 64]
  else [240 + c / 262144, 128 + c / 4096 % 64, 128 + c / 64 % 64,
    128 + c % 64]

/-- `str.encode()`: UTF-8 encoding of a Python string, the string given as
its list of code points. -/
def utf8Encode (s : List Nat) : List Nat := (s.map utf8EncodeChar).flatten

/-- `_get_key`: the secret `local_key` is a Python `str`; the test
`len(self.local_key) == 16` counts *characters*, while the value returned
is the UTF-8 *byte* encoding — or its MD5 digest (`md5` abstracting
`hashlib.md5(...).digest()`) when the character count differs from 16. -/
def _get_key (md5 : List Nat → List Nat) (local_key : List Nat) : List Nat :=
  if local_key.length = 16 then utf8Encode local_key
  else md5 (utf8Encode local_key)

/-- Outcome of one externally-performed `await`ed call (a `bleak`
operation): it either returns normally or raises. -/
inductive StepOutcome where
  | ok
  | raises
deriving DecidableEq

/-- The environment one `connect()` run interacts with: whether the scanner
finds the device, how `BleakClient.connect` behaves, the `is_connected`
flag afterwards, and whether `start_notify` or the pairing exchange inside
`_pair` (its `write_gatt_char`) raises. -/
structure ConnectEnv where
  deviceFound : Bool
  clientConnect : StepOutcome
  isConnectedAfter : Bool
  startNotify : StepOutcome
  pairExchange : StepOutcome
deriving DecidableEq

/-- The link-resource view of the engine: whether `self._client` is set,
whether the underlying BLE link is open, and whether the link's disconnect
has been invoked. -/
structure LinkView where
  clientSet : Bool
  linkOpen : Bool
  disconnectCalled : Bool
deriving DecidableEq

/-- The state before `connect()` runs: no client, link closed. -/
def initLinkView : LinkView := ⟨false, false, false⟩

/-- `connect()` translated exit path by exit path: scanner miss and connect
failure return `False` with the link closed; once the link is open, an
exception from `start_notify` or from the pairing exchange is caught by the
`except` clauses, which return `False` *without disconnecting*. Returns the
boolean `connect` returns together with the resulting link state. -/
def connectRun (env : ConnectEnv) (st : LinkView) : Bool × LinkView :=
  if ¬ env.deviceFound then (false, st)
  else
    let st1 := { st with clientSet := true }
    match env.clientConnect with
    | .raises => (false, st1)
    | .ok =>
        let st2 := { st1 with linkOpen := env.isConnectedAfter }
        if ¬ env.isConnectedAfter then (false, st2)
        else
          match env.startNotify with
          | .raises => (false, st2)
          | .ok =>
              match env.pairExchange with
              | .raises => (false, st2)
              | .ok => (true, st2)

/-- `disconnect()`: when a client exists and is connected, invoke the
link's disconnect (its own exceptions are caught); then always clear
`self._client` (and the session key). -/
def disconnectRun (st : LinkView) : LinkView :=
  let st1 :=
    if st.clientSet ∧ st.linkOpen then
      { st with disconnectCalled := true, linkOpen := false }
    else st
  { st1 with clientSet := false }

/-- `BLEPoller.poll_sensor` (ble_poller.py, lines 133–154): the exchange
runs inside `try: ... finally: await device.disconnect()`, so `disconnect`
runs on every exit path — when `connect` returned `False`, when reading
raised, and on success. `read_sensors` never touches the link state itself
(its exceptions are caught internally). -/
def poll_sensor_run (env : ConnectEnv) (readOutcome : StepOutcome) :
    LinkView :=
  let r := connectRun env initLinkView
  disconnectRun r.2

end TuyaBLE

namespace TuyaBLE

theorem u16be_length (n : Nat) : (u16be n).length = 2 := rfl

theorem beNat_u16be (n : Nat) (h : n < 65536) : beNat (u16be n) = n := by
  simp only [u16be, beNat, List.foldl]
  have h1 : n / 256 < 256 := by omega
  have h2 : n / 256 % 256 = n / 256 := Nat.mod_eq_of_lt h1
  rw [h2]
  omega

set_option maxRecDepth 4000 in
/-- `parse_header` on a buffer presented as five explicit header bytes
followed by a body of at least two bytes. -/
theorem parse_header_cons (s0 s1 c n0 n1 : Nat) (body : List Nat)
    (hb : 2 ≤ body.length) :
    parse_header (s0 :: s1 :: c :: n0 :: n1 :: body) =
      some (s0 * 256 + s1, c, body.take (256 * n0 + n1)) := by
  have h7 : ¬ (s0 :: s1 :: c :: n0 :: n1 :: body).length < 7 := by
    simp only [List.length_cons]
    omega
  simp [parse_header, h7, beNat, hb]

/-- C1: for every command code (< 256, as the byte-packed field requires)
and every payload of length ≤ 512, parsing the header of the packet built by
`_build_packet` reproduces the advanced sequence number, the command, and the
payload exactly. -/
theorem decode_encode_roundtrip (seq cmd : Nat) (data : List Nat)
    (hc : cmd < 256) (hn : data.length ≤ 512) :
    parse_header (_build_packet seq cmd data).2 =
      some ((seq + 1) % 65536, cmd, data) := by
  have hs : (seq + 1) % 65536 < 65536 := Nat.mod_lt _ (by omega)
  have hshape : (_build_packet seq cmd data).2 =
      (seq + 1) % 65536 / 256 % 256 :: (seq + 1) % 65536 % 256 :: cmd ::
        data.length / 256 % 256 :: data.length % 256 ::
        (data ++ u16be (_crc16 (u16be ((seq + 1) % 65536) ++ [cmd] ++
          u16be data.length ++ data))) := by
    simp [_build_packet, u16be]
  rw [hshape, parse_header_cons]
  · have hdecl : 256 * (data.length / 256 % 256) + data.length % 256 =
        data.length := by
      have hq : data.length / 256 < 256 := by omega
      rw [Nat.mod_eq_of_lt hq]
      omega
    have hdiv : (seq + 1) % 65536 / 256 < 256 := by omega
    rw [hdecl, List.take_left' rfl, Nat.mod_eq_of_lt hdiv]
    have : (seq + 1) % 65536 / 256 * 256 + (seq + 1) % 65536 % 256 =
        (seq + 1) % 65536 := by omega
    rw [this]
  · simp [u16be]

/-- Witness for C1 at `seq = 5`, `cmd = 8`, payload `[1, 2, 3]`. -/
theorem decode_encode_roundtrip_witness :
    parse_header (_build_packet 5 8 [1, 2, 3]).2 = some (6, 8, [1, 2, 3]) := by
  have h := decode_encode_roundtrip 5 8 [1, 2, 3] (by decide) (by decide)
  simpa using h

theorem chunks16_nil : chunks16 [] = [] := rfl

theorem chunks16Go_succ (f a : Nat) (l : List Nat) :
    chunks16Go (f + 1) (a :: l) =
      (a :: l).take 16 :: chunks16Go f ((a :: l).drop 16) := rfl

/-- `chunks16Go` does not depend on the fuel once it covers the length. -/
theorem chunks16Go_congr (l : List Nat) : ∀ f g : Nat,
    l.length ≤ f → l.length ≤ g → chunks16Go f l = chunks16Go g l := by
  generalize hn : l.length = n
  induction n using Nat.strong_induction_on generalizing l with
  | _ n ih =>
    intro f g hf hg
    rcases l with _ | ⟨a, l⟩
    · cases f <;> cases g <;> rfl
    · simp only [List.length_cons] at hn hf hg
      obtain ⟨f', rfl⟩ : ∃ f', f = f' + 1 := ⟨f - 1, by omega⟩
      obtain ⟨g', rfl⟩ : ∃ g', g = g' + 1 := ⟨g - 1, by omega⟩
      rw [chunks16Go_succ, chunks16Go_succ]
      congr 1
      refine ih ((a :: l).drop 16).length ?_ ((a :: l).drop 16) rfl f' g'
        ?_ ?_ <;>
        simp only [List.length_drop, List.length_cons] <;> omega

theorem chunks16_ne_nil (l : List Nat) (h : l ≠ []) :
    chunks16 l = l.take 16 :: chunks16 (l.drop 16) := by
  rcases l with _ | ⟨a, l⟩
  · exact absurd rfl h
  · show chunks16Go (a :: l).length (a :: l) = _
    simp only [List.length_cons]
    rw [chunks16Go_succ]
    congr 1
    exact chunks16Go_congr _ _ _
      (by simp only [List.length_drop, List.length_cons]; omega) (le_refl _)

/-- Taking a 16-byte prefix off the front commutes with chunking. -/
theorem chunks16_append (l r : List Nat) (h : l.length = 16) :
    chunks16 (l ++ r) = l :: chunks16 r := by
  have hne : l ++ r ≠ [] := by
    intro hc
    have := congrArg List.length hc
    simp [h] at this
  rw [chunks16_ne_nil _ hne, List.take_left' h, List.drop_left' h]

/-- Chunking loses no bytes. -/
theorem join_chunks16 (l : List Nat) : (chunks16 l).flatten = l := by
  generalize hn : l.length = n
  induction n using Nat.strong_induction_on generalizing l with
  | _ n ih =>
    by_cases h : l = []
    · subst h
      simp [chunks16_nil]
    · rw [chunks16_ne_nil _ h]
      have hpos : 0 < l.length := List.length_pos.mpr h
      have hdrop : (l.drop 16).length < n := by
        simp only [List.length_drop]
        omega
      simp only [List.flatten_cons]
      rw [ih _ hdrop _ rfl]
      exact List.take_append_drop 16 l

/-- Every chunk of a block-aligned buffer has exactly 16 bytes. -/
theorem chunks16_all16 (l : List Nat) (hl : l.length % 16 = 0) :
    ∀ c ∈ chunks16 l, c.length = 16 := by
  generalize hn : l.length = n
  induction n using Nat.strong_induction_on generalizing l with
  | _ n ih =>
    by_cases h : l = []
    · subst h
      simp [chunks16_nil]
    · rw [chunks16_ne_nil _ h]
      have hpos : 0 < l.length := List.length_pos.mpr h
      have h16 : 16 ≤ l.length := by omega
      intro c hc
      rcases List.mem_cons.mp hc with hhd | htl
      · subst hhd
        simp only [List.length_take]
        omega
      · have hdlen : (l.drop 16).length % 16 = 0 := by
          simp only [List.length_drop]
          omega
        have hdrop : (l.drop 16).length < n := by
          simp only [List.length_drop]
          omega
        exact ih _ hdrop _ hdlen rfl c htl

/-- Chunking inverts joining on a list of 16-byte blocks. -/
theorem chunks16_join (cs : List (List Nat)) (h : ∀ c ∈ cs, c.length = 16) :
    chunks16 cs.flatten = cs := by
  induction cs with
  | nil => simp [chunks16_nil]
  | cons c cs ih =>
    simp only [List.flatten_cons]
    rw [chunks16_append c _ (h c (List.mem_cons_self c cs))]
    rw [ih fun d hd => h d (List.mem_cons_of_mem c hd)]

/-- A joined list of 16-byte blocks has `16 * count` bytes. -/
theorem join_length_all16 (cs : List (List Nat))
    (h : ∀ c ∈ cs, c.length = 16) : cs.flatten.length = 16 * cs.length := by
  induction cs with
  | nil => simp
  | cons c cs ih =>
    simp only [List.flatten_cons, List.length_append, List.length_cons]
    rw [h c (List.mem_cons_self c cs),
      ih fun d hd => h d (List.mem_cons_of_mem c hd)]
    ring

theorem padBytes_aligned (data : List Nat) :
    (padBytes data).length % 16 = 0 := by
  simp only [padBytes, padLen, List.length_append, List.length_replicate]
  omega

/-- `decryptRaw` under the inverse block transformation undoes `_encrypt`'s
block encryption, recovering the padded buffer. -/
theorem decryptRaw_encrypt (blk blkInv : List Nat → List Nat)
    (data : List Nat) (hblk : ∀ b, b.length = 16 → (blk b).length = 16)
    (hinv : ∀ b, b.length = 16 → blkInv (blk b) = b) :
    decryptRaw blkInv (_encrypt blk data) = padBytes data := by
  have hall : ∀ c ∈ chunks16 (padBytes data), c.length = 16 :=
    chunks16_all16 _ (padBytes_aligned data)
  have hmapall : ∀ c ∈ (chunks16 (padBytes data)).map blk, c.length = 16 := by
    intro c hc
    obtain ⟨d, hd, rfl⟩ := List.mem_map.mp hc
    exact hblk d (hall d hd)
  unfold decryptRaw _encrypt
  rw [chunks16_join _ hmapall, List.map_map]
  have hid : ∀ c ∈ chunks16 (padBytes data), (blkInv ∘ blk) c = c := by
    intro c hc
    exact hinv c (hall c hc)
  rw [List.map_congr_left hid]
  simp only [List.map_id_fun', id]
  exact join_chunks16 _

/-- C2: for every block cipher satisfying the AES-128-ECB contract (16-byte
blocks in, 16-byte blocks out, decryption inverting encryption — what the
`cryptography` library provides under any one 16-byte key) and every payload
of length ≤ 1000, `_decrypt` of `_encrypt` returns the original data; the
padding length used is always in `[1, 16]`. -/
theorem decrypt_encrypt_roundtrip (blk blkInv : List Nat → List Nat)
    (data : List Nat) (hblk : ∀ b, b.length = 16 → (blk b).length = 16)
    (hinv : ∀ b, b.length = 16 → blkInv (blk b) = b)
    (hn : data.length ≤ 1000) :
    _decrypt blkInv (_encrypt blk data) = .ok data ∧
      1 ≤ padLen data ∧ padLen data ≤ 16 := by
  have hp : 1 ≤ padLen data ∧ padLen data ≤ 16 := by
    simp only [padLen]
    omega
  refine ⟨?_, hp⟩
  have hraw := decryptRaw_encrypt blk blkInv data hblk hinv
  have hall : ∀ c ∈ chunks16 (padBytes data), c.length = 16 :=
    chunks16_all16 _ (padBytes_aligned data)
  have hctall : ∀ c ∈ (chunks16 (padBytes data)).map blk, c.length = 16 := by
    intro c hc
    obtain ⟨d, hd, rfl⟩ := List.mem_map.mp hc
    exact hblk d (hall d hd)
  have hctlen : (_encrypt blk data).length % 16 = 0 := by
    unfold _encrypt
    rw [join_length_all16 _ hctall]
    omega
  have hlast : (padBytes data).getLast? = some (padLen data) := by
    obtain ⟨k, hk⟩ : ∃ k, padLen data = k + 1 := by
      refine ⟨padLen data - 1, ?_⟩
      simp only [padLen]
      omega
    simp only [padBytes, hk, List.replicate_succ', ← List.append_assoc]
    exact List.getLast?_concat _
  have hnotbad : ¬ (padLen data = 0 ∨ padLen data > 16) := by
    simp only [padLen]
    omega
  have htake : (padBytes data).take ((padBytes data).length - padLen data) =
      data := by
    have hlen : (padBytes data).length = data.length + padLen data := by
      simp [padBytes, List.length_append]
    rw [hlen, Nat.add_sub_cancel]
    exact List.take_left' rfl
  have hne : padBytes data ≠ [] := by
    intro hc
    have := congrArg List.length hc
    simp only [padBytes, List.length_append, List.length_replicate,
      List.length_nil] at this
    simp only [padLen] at this
    omega
  have hD : (padBytes data).getLastD 0 = padLen data := by
    rw [List.getLastD_eq_getLast?, hlast]
    rfl
  unfold _decrypt
  rw [hraw, if_neg (by omega), if_neg hne]
  simp only [hD, hnotbad, if_false]
  rw [htake]

/-- Witness for C2: the identity block transformation (a legitimate
instantiation of the contract) at payload `[1, 2, 3]`. -/
theorem decrypt_encrypt_roundtrip_witness :
    _decrypt (fun b => b) (_encrypt (fun b => b) [1, 2, 3]) = .ok [1, 2, 3] ∧
      1 ≤ padLen [1, 2, 3] ∧ padLen [1, 2, 3] ≤ 16 := by
  refine decrypt_encrypt_roundtrip (fun b => b) (fun b => b) [1, 2, 3]
    ?_ ?_ ?_
  · intro b hb
    exact hb
  · intro b hb
    rfl
  · decide

/-- C8: for every block-aligned, nonempty ciphertext and every block inverse
mapping 16-byte blocks to 16-byte blocks (the AES-128-ECB contract under any
key), `_decrypt` fails with `InvalidPadding` exactly when the last byte of
the decrypted block buffer is 0 or greater than 16, and otherwise returns
the decrypted bytes with that many trailing bytes stripped. -/
theorem decrypt_invalid_padding_iff (blkInv : List Nat → List Nat)
    (ct : List Nat) (h1 : ct.length % 16 = 0) (h2 : ct ≠ [])
    (h3 : ∀ b, b.length = 16 → (blkInv b).length = 16) :
    (_decrypt blkInv ct = .error .invalidPadding ↔
      (decryptRaw blkInv ct).getLastD 0 = 0 ∨
        16 < (decryptRaw blkInv ct).getLastD 0) ∧
    (0 < (decryptRaw blkInv ct).getLastD 0 →
      (decryptRaw blkInv ct).getLastD 0 ≤ 16 →
      _decrypt blkInv ct = .ok ((decryptRaw blkInv ct).take
        ((decryptRaw blkInv ct).length - (decryptRaw blkInv ct).getLastD 0))) := by
  have hall : ∀ c ∈ chunks16 ct, c.length = 16 := chunks16_all16 ct h1
  have hdall : ∀ c ∈ (chunks16 ct).map blkInv, c.length = 16 := by
    intro c hc
    obtain ⟨b, hb, rfl⟩ := List.mem_map.mp hc
    exact h3 b (hall b hb)
  have hcne : chunks16 ct ≠ [] := by
    rw [chunks16_ne_nil ct h2]
    exact List.cons_ne_nil _ _
  have hdlen : (decryptRaw blkInv ct).length = 16 * (chunks16 ct).length := by
    unfold decryptRaw
    rw [join_length_all16 _ hdall, List.length_map]
  have hcpos : 0 < (chunks16 ct).length := List.length_pos.mpr hcne
  have hdne : decryptRaw blkInv ct ≠ [] := by
    intro hc
    have := congrArg List.length hc
    simp only [List.length_nil] at this
    omega
  have hnb : ¬ ct.length % 16 ≠ 0 := by omega
  constructor
  · constructor
    · intro he
      by_contra hcond
      unfold _decrypt at he
      rw [if_neg hnb, if_neg hdne] at he
      simp only at he
      rw [if_neg ?_] at he
      · exact absurd he (by simp)
      · intro hor
        exact hcond (by omega)
    · intro hcond
      unfold _decrypt
      rw [if_neg hnb, if_neg hdne]
      simp only
      rw [if_pos (by omega)]
  · intro hpos hle
    unfold _decrypt
    rw [if_neg hnb, if_neg hdne]
    simp only
    rw [if_neg (by omega)]

/-- Witness for C8: the identity block inverse on a 16-byte ciphertext whose
last decrypted byte is 3 — `_decrypt` strips three trailing bytes. -/
theorem decrypt_invalid_padding_witness :
    _decrypt (fun b => b) (List.replicate 15 0 ++ [3]) =
      .ok (List.replicate 13 0) := by
  have h := (decrypt_invalid_padding_iff (fun b => b)
    (List.replicate 15 0 ++ [3]) (by decide) (by decide)
    (fun b hb => hb)).2
  have hdrop : List.drop 16 (List.replicate 15 0 ++ [3]) = ([] : List Nat) := by
    decide
  have htake : List.take 16 (List.replicate 15 0 ++ [3]) =
      List.replicate 15 0 ++ [3] := by
    decide
  have hck : chunks16 (List.replicate 15 0 ++ [3]) =
      [List.replicate 15 0 ++ [3]] := by
    rw [chunks16_ne_nil _ (by decide), hdrop, chunks16_nil, htake]
  have hd : decryptRaw (fun b => b) (List.replicate 15 0 ++ [3]) =
      List.replicate 15 0 ++ [3] := by
    rw [decryptRaw, hck]
    decide
  rw [hd] at h
  exact (h (by decide) (by decide)).trans (congrArg Except.ok (by decide))

/-- With any fuel, a buffer too short for a sub-header parses to nothing. -/
theorem parse_dps_go_short (f : Nat) (data : List Nat) (h : data.length < 4) :
    parse_dps_go f data = [] := by
  rcases f with _ | f
  · rcases data with _ | ⟨a, _ | ⟨b, _ | ⟨c, _ | ⟨d, rest⟩⟩⟩⟩ <;> rfl
  · rcases data with _ | ⟨a, _ | ⟨b, _ | ⟨c, _ | ⟨d, rest⟩⟩⟩⟩
    · rfl
    · rfl
    · rfl
    · rfl
    · simp only [List.length_cons] at h
      omega

/-- Unfolding of `parse_dps_go` when fuel remains and a sub-header is
present. -/
theorem parse_dps_go_succ (f a b c d : Nat) (rest : List Nat) :
    parse_dps_go (f + 1) (a :: b :: c :: d :: rest) =
      if 256 * c + d > rest.length then []
      else (a, parse_dp_value b (rest.take (256 * c + d)))
        :: parse_dps_go f (rest.drop (256 * c + d)) := rfl

/-- `parse_dps_go` does not depend on the fuel once the fuel covers the
buffer length. -/
theorem parse_dps_go_congr (data : List Nat) : ∀ f g : Nat,
    data.length ≤ f → data.length ≤ g →
    parse_dps_go f data = parse_dps_go g data := by
  generalize hn : data.length = n
  induction n using Nat.strong_induction_on generalizing data with
  | _ n ih =>
    intro f g hf hg
    rcases data with _ | ⟨a, _ | ⟨b, _ | ⟨c, _ | ⟨d, rest⟩⟩⟩⟩
    · cases f <;> cases g <;> rfl
    · rw [parse_dps_go_short f _ (by simp), parse_dps_go_short g _ (by simp)]
    · rw [parse_dps_go_short f _ (by simp), parse_dps_go_short g _ (by simp)]
    · rw [parse_dps_go_short f _ (by simp), parse_dps_go_short g _ (by simp)]
    · simp only [List.length_cons] at hn hf hg
      obtain ⟨f', rfl⟩ : ∃ f', f = f' + 1 := ⟨f - 1, by omega⟩
      obtain ⟨g', rfl⟩ : ∃ g', g = g' + 1 := ⟨g - 1, by omega⟩
      rw [parse_dps_go_succ, parse_dps_go_succ]
      by_cases hlen : 256 * c + d > rest.length
      · rw [if_pos hlen, if_pos hlen]
      · rw [if_neg hlen, if_neg hlen]
        congr 1
        refine ih (rest.drop (256 * c + d)).length ?_
          (rest.drop (256 * c + d)) rfl f' g' ?_ ?_ <;>
          simp only [List.length_drop] <;> omega

/-- `parse_dps_list` consumes one well-formed encoded sub-record off the
front and recurses on the remainder. -/
theorem parse_dps_list_append (r : Nat × Nat × List Nat) (rest : List Nat) :
    parse_dps_list (encodeDP r ++ rest) =
      (r.1, parse_dp_value r.2.1 r.2.2) :: parse_dps_list rest := by
  obtain ⟨i, t, v⟩ := r
  have hshape : encodeDP (i, t, v) ++ rest =
      i :: t :: v.length / 256 :: v.length % 256 :: (v ++ rest) := by
    simp [encodeDP]
  have hl : (i :: t :: v.length / 256 :: v.length % 256 :: (v ++ rest)).length
      = (v.length + rest.length + 3) + 1 := by
    simp only [List.length_cons, List.length_append]
  unfold parse_dps_list
  rw [hshape, hl, parse_dps_go_succ, Nat.div_add_mod]
  rw [if_neg (by simp only [List.length_append]; omega)]
  rw [List.take_left' rfl, List.drop_left' rfl]
  congr 1
  exact parse_dps_go_congr rest _ _ (by omega) (le_refl _)

/-- A buffer satisfying the break condition of the scanning loop —
too short for a sub-header, or declaring more value bytes than remain —
parses to nothing. -/
theorem parse_dps_list_stuck (tail : List Nat)
    (h : tail.length < 4 ∨
      tail.length - 4 < 256 * tail.getD 2 0 + tail.getD 3 0) :
    parse_dps_list tail = [] := by
  rcases tail with _ | ⟨a, _ | ⟨b, _ | ⟨c, _ | ⟨d, rest⟩⟩⟩⟩
  · rfl
  · rfl
  · rfl
  · rfl
  · rcases h with h | h
    · simp only [List.length_cons] at h
      omega
    · simp only [List.length_cons, List.getD_cons_succ,
        List.getD_cons_zero] at h
      unfold parse_dps_list
      rw [show (a :: b :: c :: d :: rest).length = (rest.length + 3) + 1 by
        simp only [List.length_cons]]
      rw [parse_dps_go_succ, if_pos (by omega)]

/-- C9: for every list of complete, well-formed sub-records followed by a
trailing buffer with insufficient bytes for the next sub-header or its
declared value, data-point decoding returns exactly the data points of the
complete sub-records (both as the parsed stream and as the accumulated
dict), stopping silently at the truncated tail. -/
theorem parse_dps_truncated_tail (recs : List (Nat × Nat × List Nat))
    (tail : List Nat)
    (hrecs : ∀ r ∈ recs, r.1 < 256 ∧ r.2.1 < 256 ∧ r.2.2.length < 65536)
    (htail : tail.length < 4 ∨
      tail.length - 4 < 256 * tail.getD 2 0 + tail.getD 3 0) :
    parse_dps_list ((recs.map encodeDP).flatten ++ tail) =
      recs.map (fun r => (r.1, parse_dp_value r.2.1 r.2.2)) ∧
    _parse_dps ((recs.map encodeDP).flatten ++ tail) =
      dictUpdate [] (recs.map (fun r => (r.1, parse_dp_value r.2.1 r.2.2))) := by
  have hmain : ∀ rs : List (Nat × Nat × List Nat),
      parse_dps_list ((rs.map encodeDP).flatten ++ tail) =
        rs.map (fun r => (r.1, parse_dp_value r.2.1 r.2.2)) := by
    intro rs
    induction rs with
    | nil =>
        simp only [List.map_nil, List.flatten_nil, List.nil_append]
        exact parse_dps_list_stuck tail htail
    | cons r rs ih =>
        simp only [List.map_cons, List.flatten_cons, List.append_assoc]
        rw [parse_dps_list_append, ih]
  exact ⟨hmain recs, by unfold _parse_dps; rw [hmain recs]⟩

/-- Witness for C9: one complete boolean sub-record followed by a tail
declaring 5 value bytes with only 1 present. -/
theorem parse_dps_truncated_tail_witness :
    parse_dps_list [3, 1, 0, 1, 1, 4, 2, 0, 5, 9] = [(3, DPValue.bool true)] ∧
    _parse_dps [3, 1, 0, 1, 1, 4, 2, 0, 5, 9] = [(3, DPValue.bool true)] := by
  have h := parse_dps_truncated_tail [(3, 1, [1])] [4, 2, 0, 5, 9]
    (by decide) (by decide)
  have hbuf : (([(3, 1, [1])].map encodeDP).flatten ++ [4, 2, 0, 5, 9] :
      List Nat) = [3, 1, 0, 1, 1, 4, 2, 0, 5, 9] := by decide
  rw [hbuf] at h
  exact ⟨h.1.trans (by decide), h.2.trans (by decide)⟩

/-- C10: decoding a single integer-typed sub-record whose declared value
length exceeds 4 yields the big-endian signed 32-bit value of the first
four value bytes (the rest silently ignored); a value buffer shorter than
4 bytes is left-padded with zeros before interpretation. -/
theorem int_dp_first_four_bytes (i : Nat) (v : List Nat) (hi : i < 256)
    (hv : ∀ b ∈ v, b < 256) (hlen : v.length < 65536) :
    (4 < v.length →
      parse_dps_list (encodeDP (i, DPType.VALUE, v)) =
        [(i, DPValue.int (int32ofBytes (v.take 4)))]) ∧
    (v.length < 4 →
      parse_dps_list (encodeDP (i, DPType.VALUE, v)) =
        [(i, DPValue.int (int32ofBytes
          (List.replicate (4 - v.length) 0 ++ v)))]) := by
  have hbase : parse_dps_list (encodeDP (i, DPType.VALUE, v)) =
      [(i, parse_dp_value DPType.VALUE v)] := by
    have h := parse_dps_list_append (i, DPType.VALUE, v) []
    rw [List.append_nil] at h
    rw [h]
    rfl
  constructor
  · intro h4
    rw [hbase]
    have hrj : rjust v 4 0 = v := by
      unfold rjust
      rw [show 4 - v.length = 0 by omega, List.replicate_zero,
        List.nil_append]
    unfold parse_dp_value
    rw [if_neg (by decide), if_pos rfl, hrj]
  · intro h4
    rw [hbase]
    have hrj : (rjust v 4 0).take 4 = List.replicate (4 - v.length) 0 ++ v := by
      unfold rjust
      apply List.take_of_length_le
      simp only [List.length_append, List.length_replicate]
      omega
    unfold parse_dp_value
    rw [if_neg (by decide), if_pos rfl, hrj]

/-- Witness for C10: sub-record id 1, type integer, five value bytes
`[1, 2, 3, 4, 5]` — the decoded value is `0x01020304 = 16909060` and the
fifth byte is ignored. -/
theorem int_dp_first_four_bytes_witness :
    parse_dps_list (encodeDP (1, DPType.VALUE, [1, 2, 3, 4, 5])) =
      [(1, DPValue.int 16909060)] := by
  have h := (int_dp_first_four_bytes 1 [1, 2, 3, 4, 5] (by decide)
    (by decide) (by decide)).1 (by decide)
  exact h.trans (by decide)

/-- A buffer under 7 bytes leaves the handler's state untouched. -/
theorem notification_handler_none (blkInv : List Nat → List Nat)
    (st : DeviceState) (data : List Nat) (h : parse_header data = none) :
    _notification_handler blkInv st data = st := by
  unfold _notification_handler
  rw [h]

/-- On a parsable header the handler dispatches on the command. -/
theorem notification_handler_some (blkInv : List Nat → List Nat)
    (st : DeviceState) (data : List Nat) (s c : Nat) (p : List Nat)
    (h : parse_header data = some (s, c, p)) :
    _notification_handler blkInv st data = handle_frame blkInv st c p := by
  unfold _notification_handler
  rw [h]

/-- C4 counterexample: an 8-byte pair-response frame declaring a 100-byte
payload with only 3 bytes present is *not* dropped: the handler accepts the
truncated 3-byte payload and mutates the state (stores the payload, sets
the signal), where the claim requires a `Truncated` failure with no state
change. -/
theorem truncated_frame_still_processed :
    256 * ([0, 1, 2, 0, 100, 9, 9, 9] : List Nat).getD 3 0 +
        ([0, 1, 2, 0, 100, 9, 9, 9] : List Nat).getD 4 0 = 100 ∧
    ([0, 1, 2, 0, 100, 9, 9, 9] : List Nat).length - 5 = 3 ∧
    _notification_handler (fun b => b)
        ⟨none, none, false, []⟩ [0, 1, 2, 0, 100, 9, 9, 9] =
      ⟨none, some [9, 9, 9], true, []⟩ := by
  refine ⟨by decide, by decide, ?_⟩
  decide

/-- C4 as amended: a buffer smaller than the 7-byte minimum header is
dropped with no state change; a buffer whose payload is shorter than the
declared length is *not* rejected — the payload is silently truncated to
the bytes present and the frame is processed normally (shown here for
pair-response frames, which store the truncated payload). -/
theorem frame_decode_short_and_truncated (blkInv : List Nat → List Nat)
    (st : DeviceState) (data : List Nat) :
    (data.length < 7 → _notification_handler blkInv st data = st) ∧
    (7 ≤ data.length → data.getD 2 0 = TuyaCommand.PAIR_RESP →
      data.length - 5 < 256 * data.getD 3 0 + data.getD 4 0 →
      _notification_handler blkInv st data =
        { st with response_data := some (data.drop 5),
                  response_event := true } ∧
      (data.drop 5).length = data.length - 5) := by
  constructor
  · intro h7
    apply notification_handler_none
    unfold parse_header
    rw [if_pos h7]
  · intro h7 hcmd hdecl
    have hpay : (data.drop 5).take (256 * data.getD 3 0 + data.getD 4 0) =
        data.drop 5 := by
      apply List.take_of_length_le
      simp only [List.length_drop]
      omega
    have hph : parse_header data =
        some (beNat (data.take 2), data.getD 2 0, data.drop 5) := by
      unfold parse_header
      rw [if_neg (by omega), hpay]
    refine ⟨?_, by simp only [List.length_drop]⟩
    rw [notification_handler_some blkInv st data _ _ _ hph]
    unfold handle_frame
    rw [if_pos hcmd]

/-- Witness for the amended C4: a 3-byte buffer is dropped unchanged, and
the 8-byte truncated pair-response frame is processed with its 3 remaining
payload bytes. -/
theorem frame_decode_short_and_truncated_witness :
    _notification_handler (fun b => b) ⟨none, none, false, []⟩ [1, 2, 3] =
      ⟨none, none, false, []⟩ ∧
    _notification_handler (fun b => b) ⟨none, none, false, []⟩
        [0, 1, 2, 0, 100, 9, 9, 9] =
      ⟨none, some [9, 9, 9], true, []⟩ := by
  constructor
  · exact (frame_decode_short_and_truncated (fun b => b)
      ⟨none, none, false, []⟩ [1, 2, 3]).1 (by decide)
  · have h := ((frame_decode_short_and_truncated (fun b => b)
      ⟨none, none, false, []⟩ [0, 1, 2, 0, 100, 9, 9, 9]).2
      (by decide) (by decide) (by decide)).1
    exact h.trans (by decide)

/-- `_decrypt` on the empty buffer raises the IndexError of
`decrypted[-1]`, never returning bytes. -/
theorem decrypt_nil (blkInv : List Nat → List Nat) :
    _decrypt blkInv [] = .error .indexError := by
  unfold _decrypt
  rw [if_neg (by simp)]
  have h0 : decryptRaw blkInv [] = [] := by
    unfold decryptRaw
    rw [chunks16_nil]
    rfl
  rw [h0, if_pos rfl]

/-- C7: processing the pairing response — when the response payload
decrypts to at least 16 bytes, the first 16 decrypted bytes become the
session key; when the decrypted result is shorter than 16 bytes, when
decryption fails, or when no response arrived before the timeout
(`response_data = none`), no session key is set and no error escapes
(the derivation is total, so the connection proceeds in static-key
mode). -/
theorem session_key_adoption (blkInv : List Nat → List Nat)
    (rd : List Nat) :
    (∀ d, _decrypt blkInv rd = .ok d → 16 ≤ d.length →
      derive_session_key blkInv (some rd) = some (d.take 16)) ∧
    (∀ d, _decrypt blkInv rd = .ok d → d.length < 16 →
      derive_session_key blkInv (some rd) = none) ∧
    (∀ e, _decrypt blkInv rd = .error e → rd ≠ [] →
      derive_session_key blkInv (some rd) = none) ∧
    derive_session_key blkInv none = none := by
  have hne : ∀ d, _decrypt blkInv rd = .ok d → rd ≠ [] := by
    intro d hd hrd
    rw [hrd, decrypt_nil] at hd
    simp at hd
  have hsome : ∀ h : rd ≠ [], derive_session_key blkInv (some rd) =
      adopt_session_key (_decrypt blkInv rd) := by
    intro h
    show (if rd = [] then none
      else adopt_session_key (_decrypt blkInv rd)) = _
    rw [if_neg h]
  refine ⟨?_, ?_, ?_, rfl⟩
  · intro d hd h16
    rw [hsome (hne d hd), hd]
    show (if 16 ≤ d.length then some (d.take 16) else none) = _
    rw [if_pos h16]
  · intro d hd h16
    rw [hsome (hne d hd), hd]
    show (if 16 ≤ d.length then some (d.take 16) else none) = _
    rw [if_neg (by omega)]
  · intro e he hrd
    rw [hsome hrd, he]
    rfl

/-- Witness for C7: identity block cipher, 32-byte response whose
decryption ends in sixteen `16` padding bytes — the adopted session key is
the first 16 decrypted bytes; and the timeout case yields no key. -/
theorem session_key_adoption_witness :
    derive_session_key (fun b => b)
        (some (List.replicate 16 7 ++ List.replicate 16 16)) =
      some (List.replicate 16 7) ∧
    derive_session_key (fun b => b) none = none := by
  have h := session_key_adoption (fun b => b)
    (List.replicate 16 7 ++ List.replicate 16 16)
  refine ⟨?_, h.2.2.2⟩
  have hd : _decrypt (fun b => b)
      (List.replicate 16 7 ++ List.replicate 16 16) =
      .ok (List.replicate 16 7) := by rfl
  exact (h.1 (List.replicate 16 7) hd (by decide)).trans
    (congrArg some (by decide))

/-- C3 counterexample: with a session key set, an inbound report frame
whose 5-byte payload is shorter than 16 bytes is *not* decrypted (indeed
its decryption would fail on block alignment) — the handler parses the
payload as plaintext and accumulates the resulting data point, where the
claim requires decryption whenever key material exists. -/
theorem report_short_payload_parsed_plaintext :
    (some (List.replicate 16 1) : Option (List Nat)).isSome = true ∧
    ([0, 1, 7, 0, 5, 3, 1, 0, 1, 1] : List Nat).getD 2 0 =
      TuyaCommand.DP_REPORT ∧
    _decrypt (fun b => b) [3, 1, 0, 1, 1] =
      .error CryptoError.notBlockAligned ∧
    _notification_handler (fun b => b)
        ⟨some (List.replicate 16 1), none, false, []⟩
        [0, 1, 7, 0, 5, 3, 1, 0, 1, 1] =
      ⟨some (List.replicate 16 1), none, true, [(3, DPValue.bool true)]⟩ := by
  exact ⟨by decide, by decide, by rfl, by decide⟩

/-- C3 as amended: for an inbound report frame, the payload is decrypted
before data-point parsing only when a session key is set *and* the payload
is at least 16 bytes (a failed decryption leaves the state unchanged);
otherwise — no session key, or a short payload even with a session key —
the payload is parsed as plaintext; in both successful cases the decoded
data points are merged into the accumulator and the completion signal is
set. -/
theorem report_routing_amended (blkInv : List Nat → List Nat)
    (st : DeviceState) (data : List Nat) (s : Nat) (payload : List Nat)
    (hph : parse_header data = some (s, TuyaCommand.DP_REPORT, payload)) :
    (st.session_key.isSome → 16 ≤ payload.length →
      (∀ d, _decrypt blkInv payload = .ok d →
        _notification_handler blkInv st data =
          { st with
            received_dps := dictUpdate st.received_dps (_parse_dps d),
            response_event := true }) ∧
      (∀ e, _decrypt blkInv payload = .error e →
        _notification_handler blkInv st data = st)) ∧
    (st.session_key.isSome = false ∨ payload.length < 16 →
      _notification_handler blkInv st data =
        { st with
          received_dps := dictUpdate st.received_dps (_parse_dps payload),
          response_event := true }) := by
  rw [notification_handler_some blkInv st data s TuyaCommand.DP_REPORT
    payload hph]
  unfold handle_frame
  rw [if_neg (by decide), if_pos rfl]
  constructor
  · intro hsk h16
    rw [if_pos ⟨hsk, h16⟩]
    constructor
    · intro d hd
      rw [hd]
    · intro e he
      rw [he]
  · intro hor
    rw [if_neg ?_]
    rcases hor with h | h
    · intro hc
      rw [h] at hc
      exact absurd hc.1 (by simp)
    · intro hc
      omega

/-- Witness for the amended C3: no session key — the report payload is
parsed as plaintext and the boolean data point accumulated. -/
theorem report_routing_amended_witness :
    _notification_handler (fun b => b) ⟨none, none, false, []⟩
        [0, 1, 7, 0, 5, 3, 1, 0, 1, 1] =
      ⟨none, none, true, [(3, DPValue.bool true)]⟩ := by
  have h := (report_routing_amended (fun b => b) ⟨none, none, false, []⟩
    [0, 1, 7, 0, 5, 3, 1, 0, 1, 1] 1 [3, 1, 0, 1, 1] (by decide)).2
    (Or.inl rfl)
  exact h.trans (by decide)

/-- C5 counterexample: the source's length test counts *characters* while
the claim speaks of bytes. The 16-character secret `"aaaaaaaaaaaaaaaé"`
(fifteen `a`s and one `é`, code point 233) passes the `len == 16` test, so
`_get_key` returns its UTF-8 encoding verbatim — 17 bytes, refuting
"the result is always 16 bytes" (the MD5 model used always returns
16 bytes, and is not even consulted on this input). -/
theorem get_key_not_always_16_bytes :
    (List.replicate 15 97 ++ [233] : List Nat).length = 16 ∧
    (_get_key (fun _ => List.replicate 16 0)
        (List.replicate 15 97 ++ [233])).length = 17 := by
  exact ⟨by decide, by decide⟩

/-- An all-ASCII string UTF-8-encodes to itself. -/
theorem utf8Encode_ascii (s : List Nat) (h : ∀ c ∈ s, c < 128) :
    utf8Encode s = s := by
  induction s with
  | nil => rfl
  | cons c cs ih =>
      show (List.map utf8EncodeChar (c :: cs)).flatten = c :: cs
      simp only [List.map_cons, List.flatten_cons]
      have hc : utf8EncodeChar c = [c] := by
        unfold utf8EncodeChar
        rw [if_pos (h c (List.mem_cons_self c cs))]
      have hrest : (List.map utf8EncodeChar cs).flatten = cs :=
        ih fun x hx => h x (List.mem_cons_of_mem c hx)
      rw [hc, hrest]
      rfl

/-- C5 as amended: the length test counts characters, so for secrets of
single-byte (ASCII) characters — where character count equals byte count —
the claim holds as stated: a 16-character secret is returned verbatim (its
UTF-8 bytes are the secret itself), any other length yields the MD5 digest
of the encoding, and the result is always 16 bytes given MD5's 16-byte
digests. -/
theorem get_key_ascii (md5 : List Nat → List Nat) (secret : List Nat)
    (hascii : ∀ c ∈ secret, c < 128)
    (hmd5 : ∀ s, (md5 s).length = 16) :
    (secret.length = 16 →
      _get_key md5 secret = utf8Encode secret ∧ utf8Encode secret = secret) ∧
    (secret.length ≠ 16 → _get_key md5 secret = md5 (utf8Encode secret)) ∧
    (_get_key md5 secret).length = 16 := by
  refine ⟨?_, ?_, ?_⟩
  · intro h16
    unfold _get_key
    rw [if_pos h16]
    exact ⟨rfl, utf8Encode_ascii secret hascii⟩
  · intro h16
    unfold _get_key
    rw [if_neg h16]
  · unfold _get_key
    by_cases h16 : secret.length = 16
    · rw [if_pos h16, utf8Encode_ascii secret hascii, h16]
    · rw [if_neg h16]
      exact hmd5 _

/-- Witness for the amended C5: a 16-`a` secret is returned verbatim; an
8-byte secret goes through the (16-byte-digest) MD5 model. -/
theorem get_key_ascii_witness :
    _get_key (fun _ => List.replicate 16 0) (List.replicate 16 97) =
      List.replicate 16 97 ∧
    (_get_key (fun _ => List.replicate 16 0)
        [97, 98, 99, 100, 49, 50, 51, 52]).length = 16 := by
  have h1 := get_key_ascii (fun _ => List.replicate 16 0)
    (List.replicate 16 97) (by decide) (fun s => rfl)
  have h2 := get_key_ascii (fun _ => List.replicate 16 0)
    [97, 98, 99, 100, 49, 50, 51, 52] (by decide) (fun s => rfl)
  exact ⟨((h1.1 (by decide)).1).trans ((h1.1 (by decide)).2), h2.2.2⟩

/-- C6 counterexample: when the link opens (`device found`, `connect` ok,
`is_connected` true, `start_notify` ok) but the pairing exchange raises,
`connect()`'s `except` clause returns `False` *with the link still open* —
the engine itself releases nothing on this failure exit path. -/
theorem connect_failure_leaves_link_open :
    (connectRun ⟨true, .ok, true, .ok, .raises⟩ initLinkView).1 = false ∧
    (connectRun ⟨true, .ok, true, .ok, .raises⟩ initLinkView).2.linkOpen =
      true := by
  exact ⟨rfl, rfl⟩

/-- C6 as amended: the guaranteed release lives one level up, in
`BLEPoller.poll_sensor`'s `try/finally`: on every exit path of a poll —
any connect outcome, any read outcome — `disconnect()` runs, the client
reference is cleared, the link ends closed, and whenever the link had been
opened the link's disconnect call was actually made. -/
theorem poll_releases_link (env : ConnectEnv) (ro : StepOutcome) :
    (poll_sensor_run env ro).clientSet = false ∧
    (poll_sensor_run env ro).linkOpen = false ∧
    ((connectRun env initLinkView).2.linkOpen = true →
      (poll_sensor_run env ro).disconnectCalled = true) := by
  rcases env with ⟨df, cc, ic, sn, pe⟩
  rcases df <;> rcases cc <;> rcases ic <;> rcases sn <;> rcases pe <;>
    rcases ro <;> decide

/-- Witness for the amended C6: the pairing-raise environment of the
counterexample — after the poll's `finally`, the link is closed and the
disconnect call was made. -/
theorem poll_releases_link_witness :
    (poll_sensor_run ⟨true, .ok, true, .ok, .raises⟩ .ok).clientSet =
      false ∧
    (poll_sensor_run ⟨true, .ok, true, .ok, .raises⟩ .ok).linkOpen =
      false ∧
    (poll_sensor_run ⟨true, .ok, true, .ok, .raises⟩
      .ok).disconnectCalled = true := by
  have h := poll_releases_link ⟨true, .ok, true, .ok, .raises⟩ .ok
  exact ⟨h.1, h.2.1, h.2.2 (by decide)⟩

end TuyaBLE
